import Mathlib

/-!
Verification of the gitignore template picker (src/gitignore/ignore.py).

The development shallowly embeds the three core components of the program:

* `fuzzy_search` — the pure fuzzy matcher (`fuzzy_search` in the source):
  the query is whitespace-normalized, an empty query matches everything,
  and otherwise a candidate matches when the compiled pattern
  `c1.*c2.*...*ck` (each query character escaped, `re.IGNORECASE`) is
  found in it.  Since the dot of the pattern does not match a newline,
  the pattern is found in a string exactly when some newline-free
  segment of the string contains the query characters as an ordered,
  case-insensitive subsequence; `pySearch` below is that denotation.

* `cliRun` — the interactive selection loop (`cli` / `draw_cli` in the
  source), embedded as a step function over an explicit state
  (query buffer, cursor index, filtered view) driven by a list of raw
  key codes.

* `find_common_prefix_and_strip_paths` — the path reducer, over an
  embedding `PPath` of `pathlib` pure POSIX paths (an absolute flag and
  the list of non-root components).
-/

/-- Whitespace class of the pattern used by the query normalization in
`fuzzy_search` (the ASCII characters matched by a whitespace class):
space, tab, newline, carriage return, vertical tab, form feed. -/
def pyIsSpace (c : Char) : Bool :=
  c.toNat = 32 || c.toNat = 9 || c.toNat = 10 || c.toNat = 13 ||
  c.toNat = 11 || c.toNat = 12

/-- Strip leading and trailing whitespace, as `str.strip()` does. -/
def pyStrip (l : List Char) : List Char :=
  ((l.dropWhile pyIsSpace).reverse.dropWhile pyIsSpace).reverse

/-- Collapse every maximal run of whitespace characters to a single
space, as the substitution of a whitespace-run pattern by one space
does.  The boolean records whether the previous character was
whitespace (so the run's tail is dropped). -/
def collapseWS : Bool → List Char → List Char
  | _, [] => []
  | prevSpace, c :: cs =>
    if pyIsSpace c then
      if prevSpace then collapseWS true cs
      else ' ' :: collapseWS true cs
    else c :: collapseWS false cs

/-- Query normalization of `fuzzy_search`: strip, then collapse
whitespace runs to single spaces. -/
def normalizeL (l : List Char) : List Char :=
  collapseWS false (pyStrip l)

/-- Query normalization, on strings. -/
def normalizeQuery (s : String) : List Char :=
  normalizeL s.toList

/-- Case-insensitive greedy subsequence test: does `q` occur inside `s`
as an ordered subsequence, characters compared lower-cased?  This is
the regex test of one newline-free segment. -/
def subseqCI : List Char → List Char → Bool
  | [], _ => true
  | _ :: _, [] => false
  | a :: as, b :: bs =>
    if a.toLower = b.toLower then subseqCI as bs
    else subseqCI (a :: as) bs

/-- Split a character list on newlines into its maximal newline-free
segments (always non-empty, like the list of lines of a string). -/
def splitLines : List Char → List (List Char)
  | [] => [[]]
  | c :: cs =>
    if c = '\n' then [] :: splitLines cs
    else
      match splitLines cs with
      | [] => [[c]]
      | l :: ls => (c :: l) :: ls

/-- Denotation of searching the compiled pattern `c1.*c2.*...*ck` in a
string under `re.IGNORECASE`: some newline-free segment contains the
query as a case-insensitive ordered subsequence (the dot of the pattern
does not match a newline, and a match may start anywhere). -/
def pySearch (q : List Char) (s : List Char) : Bool :=
  (splitLines s).any (fun line => subseqCI q line)

/-- The fuzzy matcher of the source, over a query given as characters:
normalize the query, return all items on an empty normalized query,
otherwise keep the items the pattern is found in, in order. -/
def fuzzySearchL (query : List Char) (items : List String) : List String :=
  let q := normalizeL query
  if q.isEmpty then items
  else items.filter (fun item => pySearch q item.toList)

/-- The fuzzy matcher `fuzzy_search` of the source. -/
def fuzzy_search (query : String) (items : List String) : List String :=
  fuzzySearchL query.toList items





/-! ## The selection loop -/

/-- State of the selection loop of `cli` in the source: the query
buffer, the selected index, and the filtered list of items shown. -/
structure CliState where
  query : List Char
  currentIndex : Nat
  view : List String
deriving DecidableEq, Repr

/-- Key code of the up arrow in curses. -/
def KEY_UP : Nat := 259

/-- Key code of the down arrow in curses. -/
def KEY_DOWN : Nat := 258

/-- Key code of backspace in curses. -/
def KEY_BACKSPACE : Nat := 263

/-- The non-terminating branches of the key dispatch of the loop body:
move up when possible, move down when possible, delete the last query
character, append a printable ASCII character, else do nothing. -/
def applyEdit (s : CliState) (key : Nat) : CliState :=
  if key = KEY_UP ∧ s.currentIndex > 0 then
    { s with currentIndex := s.currentIndex - 1 }
  else if key = KEY_DOWN ∧ s.currentIndex < s.view.length - 1 then
    { s with currentIndex := s.currentIndex + 1 }
  else if key = KEY_BACKSPACE then
    { s with query := s.query.dropLast }
  else if 32 ≤ key ∧ key ≤ 126 then
    { s with query := s.query ++ [Char.ofNat key] }
  else s

/-- End of the loop body: rerun the fuzzy search on the updated query,
substitute the placeholder row when nothing matches, and clamp the
index to the bounds of the new view. -/
def recompute (items : List String) (s : CliState) : CliState :=
  let sel := fuzzy_search (String.mk s.query) items
  let sel2 := if sel.isEmpty then ["No matches found"] else sel
  { s with view := sel2, currentIndex := min s.currentIndex (sel2.length - 1) }

/-- Outcome of running the loop on a finite list of key codes:
cancelled by escape, a selected string returned by enter, an
out-of-bounds indexing error on enter, or still waiting for input. -/
inductive CliOutcome where
  | cancelled
  | selected (v : String)
  | indexError
  | pending (s : CliState)
deriving DecidableEq, Repr

/-- The selection loop of `cli`, driven by a list of raw key codes.
Escape (27) returns with no selection; enter (10) returns the view
entry at the current index, or an indexing error when the index is out
of bounds; every other key is dispatched by `applyEdit` and followed by
`recompute`. -/
def cliRun (items : List String) : CliState → List Nat → CliOutcome
  | s, [] => .pending s
  | s, key :: keys =>
    if key = 27 then .cancelled
    else if key = 10 then
      match s.view[s.currentIndex]? with
      | some v => .selected v
      | none => .indexError
    else cliRun items (recompute items (applyEdit s key)) keys

/-- Initial state of the loop: empty query, index 0, unfiltered view. -/
def initState (items : List String) : CliState :=
  { query := [], currentIndex := 0, view := items }




/-! ## The path reducer -/

/-- Embedding of a `pathlib` pure POSIX path: whether it is absolute,
and its components after the optional root (so the root is `⟨true, []⟩`
and the empty relative path, printed as a dot, is `⟨false, []⟩`). -/
structure PPath where
  absolute : Bool
  comps : List String
deriving DecidableEq, Repr

/-- Parent of a path: drop the last component; the root and the empty
relative path are their own parent. -/
def PPath.parent (p : PPath) : PPath :=
  if p.comps.isEmpty then p else { p with comps := p.comps.dropLast }

/-- String form of a path, as `str()` renders it: a slash followed by
the slash-joined components when absolute, the slash-joined components
otherwise, with a dot for the empty relative path. -/
def PPath.str (p : PPath) : String :=
  if p.absolute then "/" ++ String.intercalate "/" p.comps
  else if p.comps.isEmpty then "." else String.intercalate "/" p.comps

/-- The `is_relative_to` test of `pathlib`: the other path's parts must
be an initial segment of this path's parts, where the root counts as a
part, and a path with no parts at all (the empty relative path) is an
ancestor exactly of the relative paths. -/
def PPath.isRelativeTo (p other : PPath) : Bool :=
  if other.absolute then p.absolute && other.comps.isPrefixOf p.comps
  else if other.comps.isEmpty then !p.absolute
  else !p.absolute && other.comps.isPrefixOf p.comps

/-- The `relative_to` rewrite of `pathlib`, on paths already known to
satisfy `isRelativeTo`: drop the ancestor's components and lose the
root. -/
def PPath.relativeTo (p other : PPath) : PPath :=
  { absolute := false, comps := p.comps.drop other.comps.length }

/-- Result of the inner while loop of
`find_common_prefix_and_strip_paths`, which walks the candidate prefix
up to its parents: the ancestor found, or the early return taken when
the string form of the candidate became empty, or no exit at all (the
parent chain reached its fixed point without ever satisfying either
test, so the source loops forever). -/
inductive ShrinkResult where
  | found (cp : PPath)
  | emptyStr
  | stuck
deriving DecidableEq, Repr

/-- Fuel-indexed form of the inner while loop: stop when `path` is
relative to the candidate, otherwise move to the parent, taking the
early return when its string form is empty, and detecting the fixed
point of the parent chain (which the source would spin on forever). -/
def shrinkAux (path : PPath) : Nat → PPath → ShrinkResult
  | 0, _ => .stuck
  | fuel + 1, cp =>
    if path.isRelativeTo cp then .found cp
    else if cp.comps.isEmpty then
      if cp.parent.str = "" then .emptyStr else .stuck
    else
      if cp.parent.str = "" then .emptyStr
      else shrinkAux path fuel cp.parent

/-- The inner while loop, with enough fuel for the whole parent
chain. -/
def shrinkCommon (path : PPath) (cp : PPath) : ShrinkResult :=
  shrinkAux path (cp.comps.length + 1) cp

/-- The for loop of `find_common_prefix_and_strip_paths` over the tail
of the path list: thread the candidate prefix through the inner loop
for each path.  `some (some cp)` is normal completion, `some none` the
early empty-string return, `none` non-termination of the source. -/
def reduceLoop (cp : PPath) : List PPath → Option (Option PPath)
  | [] => some (some cp)
  | p :: rest =>
    match shrinkCommon p cp with
    | .found cp2 => reduceLoop cp2 rest
    | .emptyStr => some none
    | .stuck => none

/-- The path reducer `find_common_prefix_and_strip_paths` of the
source: empty input gives an empty prefix and no paths; otherwise the
candidate prefix starts at the first path and is walked up by the loop,
and on normal completion every path is rewritten relative to it.
`none` models the source looping forever. -/
def find_common_prefix_and_strip_paths (paths : List PPath) :
    Option (String × List PPath) :=
  match paths with
  | [] => some ("", [])
  | p0 :: rest =>
    match reduceLoop p0 rest with
    | some (some cp) => some (cp.str, (p0 :: rest).map (fun p => p.relativeTo cp))
    | some none => some ("", p0 :: rest)
    | none => none



/-- Longest common initial segment of two component lists. -/
def commonPrefixL : List String → List String → List String
  | x :: xs, y :: ys => if x = y then x :: commonPrefixL xs ys else []
  | _, _ => []

/-- Longest common initial segment of a starting component list and the
component lists of a list of paths, folded in loop order. -/
def lcpAll (start : List String) (rest : List PPath) : List String :=
  rest.foldl (fun a p => commonPrefixL a p.comps) start

/-! ## Matcher lemmas -/

theorem subseqCI_iff_sublist :
    ∀ (s q : List Char), subseqCI q s = true ↔
      List.Sublist (q.map Char.toLower) (s.map Char.toLower) := by
  intro s
  induction s with
  | nil =>
    intro q
    cases q with
    | nil => simp [subseqCI]
    | cons a as => simp [subseqCI]
  | cons b bs ih =>
    intro q
    cases q with
    | nil => simp [subseqCI]
    | cons a as =>
      by_cases h : a.toLower = b.toLower
      · simp only [subseqCI, if_pos h, List.map_cons, h, List.cons_sublist_cons]
        exact ih as
      · simp only [subseqCI, if_neg h, List.map_cons]
        rw [List.sublist_cons_iff]
        constructor
        · intro hs
          exact Or.inl (by simpa using (ih (a :: as)).mp hs)
        · intro hs
          rcases hs with hs | ⟨r, hr, _⟩
          · exact (ih (a :: as)).mpr (by simpa using hs)
          · exact absurd (List.cons.injEq _ _ _ _ ▸ hr).1 h

theorem splitLines_of_no_newline :
    ∀ (s : List Char), '\n' ∉ s → splitLines s = [s] := by
  intro s
  induction s with
  | nil => intro _; rfl
  | cons c cs ih =>
    intro h
    have hc : ¬ c = '\n' := fun hc => h (hc ▸ List.mem_cons_self c cs)
    have hcs : '\n' ∉ cs := fun hm => h (List.mem_cons_of_mem c hm)
    simp only [splitLines, if_neg hc, ih hcs]

theorem splitLines_ne_nil (s : List Char) : splitLines s ≠ [] := by
  cases s with
  | nil => simp [splitLines]
  | cons c cs =>
    simp only [splitLines]
    split
    · simp
    · split <;> simp

theorem pySearch_of_no_newline (q s : List Char) (h : '\n' ∉ s) :
    pySearch q s = subseqCI q s := by
  simp [pySearch, splitLines_of_no_newline s h]

theorem mem_fuzzy_search_iff (q : String) (items : List String) (item : String) :
    item ∈ fuzzy_search q items ↔
      item ∈ items ∧
        ∃ line ∈ splitLines item.toList,
          List.Sublist ((normalizeQuery q).map Char.toLower) (line.map Char.toLower) := by
  unfold fuzzy_search fuzzySearchL
  dsimp only
  by_cases h : (normalizeL q.toList).isEmpty
  · rw [if_pos h]
    rw [List.isEmpty_iff] at h
    simp only [normalizeQuery, h, List.map_nil]
    constructor
    · intro hm
      exact ⟨hm, (splitLines item.toList).head (splitLines_ne_nil _),
        List.head_mem _, List.nil_sublist _⟩
    · exact fun hm => hm.1
  · rw [if_neg h]
    rw [List.mem_filter]
    simp only [pySearch, List.any_eq_true, normalizeQuery]
    constructor
    · rintro ⟨hm, line, hline, hsub⟩
      exact ⟨hm, line, hline, (subseqCI_iff_sublist line _).mp hsub⟩
    · rintro ⟨hm, line, hline, hsub⟩
      exact ⟨hm, line, hline, (subseqCI_iff_sublist line _).mpr hsub⟩

/-! ## Matcher claims -/

theorem fuzzySearchL_eq (q : List Char) (items : List String) :
    fuzzySearchL q items =
      if normalizeL q = [] then items
      else items.filter (fun item => pySearch (normalizeL q) item.toList) := by
  unfold fuzzySearchL
  dsimp only
  by_cases h : normalizeL q = []
  · simp only [h, List.isEmpty_nil, if_pos rfl, if_true]
  · rw [if_neg h, if_neg]
    simp [List.isEmpty_iff, h]

/-- Claim C6: for every query and candidate list, the matcher result is
an order-preserving subsequence of the candidate list — every returned
element occurs in the input, no new elements are introduced, and the
relative order is preserved. -/
theorem fuzzy_search_is_sublist (q : String) (items : List String) :
    List.Sublist (fuzzy_search q items) items := by
  unfold fuzzy_search fuzzySearchL
  dsimp only
  split
  · exact List.Sublist.refl items
  · exact List.filter_sublist items

/-- Claim C8: the matcher is idempotent — filtering twice with the same
query yields the same result as filtering once. -/
theorem fuzzy_search_idempotent (q : String) (items : List String) :
    fuzzy_search q (fuzzy_search q items) = fuzzy_search q items := by
  unfold fuzzy_search
  simp only [fuzzySearchL_eq]
  by_cases h : normalizeL q.toList = []
  · rw [if_pos h]
  · simp only [if_neg h, List.filter_filter, Bool.and_self]

/-- Claim C5: a query that is empty after whitespace normalization
(empty or whitespace-only) matches every item, returning the candidate
list itself in its original order. -/
theorem fuzzy_search_empty_query_all :
    (∀ (q : String) (items : List String),
        normalizeQuery q = [] → fuzzy_search q items = items)
    ∧ (∀ items : List String, fuzzy_search "" items = items) := by
  constructor
  · intro q items h
    unfold normalizeQuery at h
    unfold fuzzy_search
    rw [fuzzySearchL_eq, if_pos h]
  · intro items
    rfl

/-- Witness for claim C5, at a whitespace-only query. -/
theorem fuzzy_search_empty_query_all_witness :
    fuzzy_search "   " ["Node.gitignore", "Go.gitignore"]
      = ["Node.gitignore", "Go.gitignore"] :=
  fuzzy_search_empty_query_all.1 "   " ["Node.gitignore", "Go.gitignore"] (by decide)

/-- Claim C3 counterexample: the query holding the special character
dot selects both candidates, not only the first one as claimed, because
the characters of the query also occur in order in the second
candidate; and a candidate whose matching window would have to cross a
newline is not returned even though the query occurs in it as a plain
ordered subsequence, because the dot of the compiled pattern does not
match a newline. -/
theorem fuzzy_search_subsequence_claim_counterexample :
    (fuzzy_search "n.g" ["Node.gitignore", "Python.gitignore"]
        = ["Node.gitignore", "Python.gitignore"])
    ∧ (fuzzy_search "ab" ["a\nb"] = []
        ∧ List.Sublist ((normalizeQuery "ab").map Char.toLower)
            ((String.toList "a\nb").map Char.toLower)) := by
  exact ⟨by decide, by decide, by decide⟩

/-- Claim C3 (amended): a candidate free of newlines is returned by the
matcher exactly when the normalized query's characters occur in it as
an ordered subsequence, compared case-insensitively, with special
characters of the query treated literally; the query of the form
letter-dot-letter selects both listed candidates (its characters occur
in order in both), and the two-letter query selects exactly the single
matching candidate. -/
theorem fuzzy_search_subsequence_characterization :
    (∀ (q : String) (items : List String) (item : String),
        '\n' ∉ item.toList →
        (item ∈ fuzzy_search q items ↔
          item ∈ items ∧
            List.Sublist ((normalizeQuery q).map Char.toLower)
              (item.toList.map Char.toLower)))
    ∧ fuzzy_search "n.g" ["Node.gitignore", "Python.gitignore"]
        = ["Node.gitignore", "Python.gitignore"]
    ∧ fuzzy_search "py" ["Node.gitignore", "Python.gitignore", "Go.gitignore"]
        = ["Python.gitignore"] := by
  refine ⟨?_, by decide, by decide⟩
  intro q items item h
  rw [mem_fuzzy_search_iff]
  rw [splitLines_of_no_newline item.toList h]
  simp

/-- Witness for claim C3, instantiated at the two-letter query and a
newline-free candidate. -/
theorem fuzzy_search_subsequence_characterization_witness :
    "Python.gitignore" ∈
        fuzzy_search "py" ["Node.gitignore", "Python.gitignore", "Go.gitignore"] ↔
      "Python.gitignore" ∈ ["Node.gitignore", "Python.gitignore", "Go.gitignore"] ∧
        List.Sublist ((normalizeQuery "py").map Char.toLower)
          ((String.toList "Python.gitignore").map Char.toLower) :=
  fuzzy_search_subsequence_characterization.1 "py"
    ["Node.gitignore", "Python.gitignore", "Go.gitignore"] "Python.gitignore" (by decide)

/-! ## Case-insensitivity of the matcher in the query -/

theorem toNat_ofNat_valid {n : Nat} (h : n.isValidChar) :
    (Char.ofNat n).toNat = n := by
  unfold Char.ofNat
  rw [dif_pos h]
  rfl

theorem char_toLower_toUpper (c : Char) : c.toUpper.toLower = c.toLower := by
  unfold Char.toUpper Char.toLower
  by_cases hl : 97 ≤ c.toNat ∧ c.toNat ≤ 122
  · rw [if_pos hl]
    have ht : (Char.ofNat (c.toNat - 32)).toNat = c.toNat - 32 :=
      toNat_ofNat_valid (Or.inl (by omega))
    rw [ht, if_pos (by omega), if_neg (by omega)]
    have harith : c.toNat - 32 + 32 = c.toNat := by omega
    rw [harith, Char.ofNat_toNat]
  · rw [if_neg hl]

theorem char_toLower_toLower (c : Char) : c.toLower.toLower = c.toLower := by
  unfold Char.toLower
  by_cases hl : 65 ≤ c.toNat ∧ c.toNat ≤ 90
  · rw [if_pos hl]
    have ht : (Char.ofNat (c.toNat + 32)).toNat = c.toNat + 32 :=
      toNat_ofNat_valid (Or.inl (by omega))
    rw [ht, if_neg (by omega)]
  · rw [if_neg hl, if_neg hl]

theorem pyIsSpace_toUpper (c : Char) : pyIsSpace c.toUpper = pyIsSpace c := by
  unfold Char.toUpper
  by_cases hl : 97 ≤ c.toNat ∧ c.toNat ≤ 122
  · rw [if_pos hl]
    have ht : (Char.ofNat (c.toNat - 32)).toNat = c.toNat - 32 :=
      toNat_ofNat_valid (Or.inl (by omega))
    have h1 : pyIsSpace (Char.ofNat (c.toNat - 32)) = false := by
      simp [pyIsSpace, ht]
      omega
    have h2 : pyIsSpace c = false := by
      simp [pyIsSpace]
      omega
    rw [h1, h2]
  · rw [if_neg hl]

theorem pyIsSpace_toLower (c : Char) : pyIsSpace c.toLower = pyIsSpace c := by
  unfold Char.toLower
  by_cases hl : 65 ≤ c.toNat ∧ c.toNat ≤ 90
  · rw [if_pos hl]
    have ht : (Char.ofNat (c.toNat + 32)).toNat = c.toNat + 32 :=
      toNat_ofNat_valid (Or.inl (by omega))
    have h1 : pyIsSpace (Char.ofNat (c.toNat + 32)) = false := by
      simp [pyIsSpace, ht]
      omega
    have h2 : pyIsSpace c = false := by
      simp [pyIsSpace]
      omega
    rw [h1, h2]
  · rw [if_neg hl]

theorem pyStrip_map (f : Char → Char) (hf : ∀ c, pyIsSpace (f c) = pyIsSpace c)
    (l : List Char) : pyStrip (l.map f) = (pyStrip l).map f := by
  have hcomp : pyIsSpace ∘ f = pyIsSpace := funext hf
  unfold pyStrip
  rw [List.dropWhile_map, hcomp, ← List.map_reverse, List.dropWhile_map, hcomp,
    ← List.map_reverse]

theorem collapseWS_map (f : Char → Char)
    (hf : ∀ c, pyIsSpace (f c) = pyIsSpace c) (hsp : f ' ' = ' ') :
    ∀ (l : List Char) (b : Bool), collapseWS b (l.map f) = (collapseWS b l).map f := by
  intro l
  induction l with
  | nil => intro b; rfl
  | cons c cs ih =>
    intro b
    simp only [List.map_cons, collapseWS, hf c]
    by_cases hc : pyIsSpace c = true
    · rw [if_pos hc, if_pos hc]
      cases b
      · simp [ih, hsp]
      · simp [ih]
    · rw [if_neg hc, if_neg hc]
      simp [ih]

theorem normalizeL_map (f : Char → Char)
    (hf : ∀ c, pyIsSpace (f c) = pyIsSpace c) (hsp : f ' ' = ' ')
    (l : List Char) : normalizeL (l.map f) = (normalizeL l).map f := by
  unfold normalizeL
  rw [pyStrip_map f hf, collapseWS_map f hf hsp]

theorem subseqCI_map_congr (f g : Char → Char)
    (hfg : ∀ a, (f a).toLower = (g a).toLower) :
    ∀ (s q : List Char), subseqCI (q.map f) s = subseqCI (q.map g) s := by
  intro s
  induction s with
  | nil =>
    intro q
    cases q <;> rfl
  | cons b bs ih =>
    intro q
    cases q with
    | nil => rfl
    | cons a as =>
      simp only [List.map_cons, subseqCI, hfg a]
      by_cases h : (g a).toLower = b.toLower
      · rw [if_pos h, if_pos h, ih as]
      · rw [if_neg h, if_neg h]
        simpa using ih (a :: as)

theorem pySearch_map_congr (f g : Char → Char)
    (hfg : ∀ a, (f a).toLower = (g a).toLower) (q s : List Char) :
    pySearch (q.map f) s = pySearch (q.map g) s := by
  unfold pySearch
  have hfun : (fun line => subseqCI (q.map f) line) = fun line => subseqCI (q.map g) line :=
    funext fun line => subseqCI_map_congr f g hfg line q
  rw [hfun]

theorem fuzzySearchL_case_fold (l : List Char) (items : List String) :
    fuzzySearchL (l.map Char.toUpper) items = fuzzySearchL (l.map Char.toLower) items := by
  have hfg : ∀ a : Char, a.toUpper.toLower = a.toLower.toLower := by
    intro a
    rw [char_toLower_toUpper, char_toLower_toLower]
  rw [fuzzySearchL_eq, fuzzySearchL_eq,
    normalizeL_map Char.toUpper pyIsSpace_toUpper (by decide),
    normalizeL_map Char.toLower pyIsSpace_toLower (by decide)]
  by_cases h : normalizeL l = []
  · rw [h]
    rfl
  · rw [if_neg (by simp [h]), if_neg (by simp [h])]
    apply List.filter_congr
    intro item _
    exact pySearch_map_congr Char.toUpper Char.toLower hfg (normalizeL l) item.toList

/-- Claim C7: the matcher is case-insensitive in the query — matching
with the upper-cased query yields exactly the same result as matching
with the lower-cased query. -/
theorem fuzzy_search_case_insensitive (q : String) (items : List String) :
    fuzzy_search q.toUpper items = fuzzy_search q.toLower items := by
  have hupper : q.toUpper.toList = q.toList.map Char.toUpper := by
    simp [String.toUpper, String.map_eq, String.toList]
  have hlower : q.toLower.toList = q.toList.map Char.toLower := by
    simp [String.toLower, String.map_eq, String.toList]
  unfold fuzzy_search
  rw [hupper, hlower]
  exact fuzzySearchL_case_fold q.toList items

/-! ## Selection loop claims -/

theorem recompute_view_ne_nil (items : List String) (s : CliState) :
    (recompute items s).view ≠ [] := by
  unfold recompute
  dsimp only
  split
  · simp
  · intro h
    simp_all [List.isEmpty_iff]

theorem recompute_index_lt (items : List String) (s : CliState) :
    (recompute items s).currentIndex < (recompute items s).view.length := by
  have hne := recompute_view_ne_nil items s
  have hpos : 0 < (recompute items s).view.length := List.length_pos.mpr hne
  unfold recompute
  dsimp only
  unfold recompute at hpos
  dsimp only at hpos
  omega

theorem cliRun_pending_index_lt (items : List String) :
    ∀ (keys : List Nat) (s : CliState),
      s.currentIndex < s.view.length →
      ∀ s2, cliRun items s keys = .pending s2 → s2.currentIndex < s2.view.length := by
  intro keys
  induction keys with
  | nil =>
    intro s hs s2 h
    unfold cliRun at h
    cases h
    exact hs
  | cons key ks ih =>
    intro s hs s2 h
    unfold cliRun at h
    by_cases h27 : key = 27
    · rw [if_pos h27] at h
      cases h
    · rw [if_neg h27] at h
      by_cases h10 : key = 10
      · rw [if_pos h10] at h
        rcases hv : s.view[s.currentIndex]? with _ | v <;> rw [hv] at h <;> cases h
      · rw [if_neg h10] at h
        exact ih (recompute items (applyEdit s key)) (recompute_index_lt items _) s2 h

theorem cliRun_no_indexError (items : List String) :
    ∀ (keys : List Nat) (s : CliState),
      s.currentIndex < s.view.length →
      cliRun items s keys ≠ .indexError := by
  intro keys
  induction keys with
  | nil =>
    intro s _ h
    cases h
  | cons key ks ih =>
    intro s hs h
    unfold cliRun at h
    by_cases h27 : key = 27
    · rw [if_pos h27] at h
      cases h
    · rw [if_neg h27] at h
      by_cases h10 : key = 10
      · rw [if_pos h10] at h
        rw [List.getElem?_eq_getElem hs] at h
        cases h
      · rw [if_neg h10] at h
        exact ih (recompute items (applyEdit s key)) (recompute_index_lt items _) h

/-- Claim C4: after every sequence of input-event transitions from the
initial state, the cursor is a valid index into the filtered view
whenever the view is non-empty — the index is clamped into range after
every recomputation of the view. -/
theorem cli_cursor_in_bounds (items : List String) (keys : List Nat) (s : CliState)
    (hrun : cliRun items (initState items) keys = .pending s)
    (hne : s.view ≠ []) : s.currentIndex < s.view.length := by
  cases keys with
  | nil =>
    unfold cliRun at hrun
    cases hrun
    exact List.length_pos.mpr hne
  | cons key ks =>
    unfold cliRun at hrun
    by_cases h27 : key = 27
    · rw [if_pos h27] at hrun
      cases hrun
    · rw [if_neg h27] at hrun
      by_cases h10 : key = 10
      · rw [if_pos h10] at hrun
        rcases hv : (initState items).view[(initState items).currentIndex]? with _ | v <;>
          rw [hv] at hrun <;> cases hrun
      · rw [if_neg h10] at hrun
        exact cliRun_pending_index_lt items ks _ (recompute_index_lt items _) s hrun

/-- Witness for claim C4, at a singleton item list and the empty key
sequence. -/
theorem cli_cursor_in_bounds_witness :
    (initState ["Node.gitignore"]).currentIndex < (initState ["Node.gitignore"]).view.length :=
  cli_cursor_in_bounds ["Node.gitignore"] [] (initState ["Node.gitignore"]) rfl (by decide)

/-- Claim C10: the indexing done by the enter branch is in bounds for
every reachable state as soon as the initial item list is non-empty,
and when it is empty the very first enter keystroke reaches the
indexing-error branch, because the initial view is the empty list and
the placeholder is substituted only after a first non-terminating
keystroke. -/
theorem cli_enter_index_safety :
    (∀ (items : List String) (keys : List Nat), items ≠ [] →
        cliRun items (initState items) keys ≠ .indexError)
    ∧ cliRun [] (initState []) [10] = .indexError := by
  constructor
  · intro items keys hne
    exact cliRun_no_indexError items keys (initState items)
      (List.length_pos.mpr hne)
  · rfl

/-- Witness for claim C10, at a singleton item list with enter as the
first key. -/
theorem cli_enter_index_safety_witness :
    cliRun ["Node.gitignore"] (initState ["Node.gitignore"]) [10] ≠ .indexError :=
  cli_enter_index_safety.1 ["Node.gitignore"] [10] (by decide)

/-- Claim C1 failing run: with one real candidate and a query matching
nothing, the view holds only the synthetic placeholder row, and the
enter key returns the literal placeholder text as the selection, a
string that is not among the input items — the loop neither returns
none nor stays active. -/
theorem cli_enter_on_placeholder_returns_placeholder :
    cliRun ["Node.gitignore"] (initState ["Node.gitignore"]) [122, 122, 122, 10]
        = .selected "No matches found"
    ∧ "No matches found" ∉ ["Node.gitignore"] := by
  exact ⟨by decide, by decide⟩

/-! ## Path reducer lemmas -/

theorem commonPrefixL_nil_right : ∀ X : List String, commonPrefixL X [] = [] := by
  intro X
  cases X <;> rfl

theorem commonPrefixL_prefix_left :
    ∀ (X Y : List String), commonPrefixL X Y <+: X := by
  intro X
  induction X with
  | nil => intro Y; cases Y <;> simp [commonPrefixL]
  | cons x xs ih =>
    intro Y
    cases Y with
    | nil => simp [commonPrefixL]
    | cons y ys =>
      by_cases h : x = y
      · simp only [commonPrefixL, if_pos h]
        exact List.cons_prefix_cons.mpr ⟨rfl, ih ys⟩
      · simp [commonPrefixL, if_neg h]

theorem commonPrefixL_prefix_right :
    ∀ (X Y : List String), commonPrefixL X Y <+: Y := by
  intro X
  induction X with
  | nil => intro Y; cases Y <;> simp [commonPrefixL]
  | cons x xs ih =>
    intro Y
    cases Y with
    | nil => simp [commonPrefixL]
    | cons y ys =>
      by_cases h : x = y
      · simp only [commonPrefixL, if_pos h]
        exact List.cons_prefix_cons.mpr ⟨h, ih ys⟩
      · simp [commonPrefixL, if_neg h]

theorem prefix_commonPrefixL :
    ∀ (M X Y : List String), M <+: X → M <+: Y → M <+: commonPrefixL X Y := by
  intro M
  induction M with
  | nil => intro X Y _ _; exact List.nil_prefix
  | cons m ms ih =>
    intro X Y hX hY
    cases X with
    | nil => simp at hX
    | cons x xs =>
      cases Y with
      | nil => simp at hY
      | cons y ys =>
        rw [List.cons_prefix_cons] at hX hY
        have hxy : x = y := hX.1 ▸ hY.1 ▸ rfl
        simp only [commonPrefixL, if_pos hxy]
        exact List.cons_prefix_cons.mpr ⟨hX.1, ih xs ys hX.2 hY.2⟩

theorem commonPrefixL_eq_of_isPrefix :
    ∀ (X Y : List String), X <+: Y → commonPrefixL X Y = X := by
  intro X
  induction X with
  | nil => intro Y _; cases Y <;> rfl
  | cons x xs ih =>
    intro Y h
    cases Y with
    | nil => simp at h
    | cons y ys =>
      rw [List.cons_prefix_cons] at h
      simp only [commonPrefixL, if_pos h.1]
      rw [ih ys h.2]

theorem commonPrefixL_dropLast :
    ∀ (X Y : List String), ¬(X <+: Y) →
      commonPrefixL X.dropLast Y = commonPrefixL X Y := by
  intro X
  induction X with
  | nil => intro Y h; exact absurd List.nil_prefix h
  | cons x xs ih =>
    intro Y h
    cases Y with
    | nil =>
      rw [commonPrefixL_nil_right, commonPrefixL_nil_right]
    | cons y ys =>
      by_cases hxy : x = y
      · have hns : ¬(xs <+: ys) := fun hc => h (List.cons_prefix_cons.mpr ⟨hxy, hc⟩)
        cases xs with
        | nil => exact absurd (List.cons_prefix_cons.mpr ⟨hxy, List.nil_prefix⟩) h
        | cons a as =>
          have hd : (x :: a :: as).dropLast = x :: (a :: as).dropLast := rfl
          rw [hd]
          simp only [commonPrefixL, if_pos hxy]
          rw [ih ys hns]
      · cases xs with
        | nil => simp [commonPrefixL, if_neg hxy, List.dropLast]
        | cons a as =>
          have hd : (x :: a :: as).dropLast = x :: (a :: as).dropLast := rfl
          rw [hd]
          simp [commonPrefixL, if_neg hxy]

theorem str_absolute_ne_empty (p : PPath) (h : p.absolute = true) : p.str ≠ "" := by
  unfold PPath.str
  rw [if_pos h]
  intro hc
  have hlen := congrArg String.length hc
  rw [String.length_append] at hlen
  have h1 : ("/" : String).length = 1 := rfl
  have h0 : ("" : String).length = 0 := rfl
  omega

theorem parent_absolute (cp : PPath) (h : cp.absolute = true) :
    cp.parent.absolute = true := by
  unfold PPath.parent
  split <;> simp [h]

theorem parent_comps_of_ne (cp : PPath) (h : ¬cp.comps.isEmpty = true) :
    cp.parent.comps = cp.comps.dropLast := by
  unfold PPath.parent
  rw [if_neg h]

theorem isRelativeTo_absolute (p cp : PPath)
    (hp : p.absolute = true) (hcp : cp.absolute = true) :
    p.isRelativeTo cp = true ↔ cp.comps <+: p.comps := by
  unfold PPath.isRelativeTo
  rw [if_pos hcp, hp]
  simp

theorem shrinkAux_absolute (p : PPath) (hp : p.absolute = true) :
    ∀ (fuel : Nat) (cp : PPath), cp.absolute = true → cp.comps.length < fuel →
      shrinkAux p fuel cp = .found ⟨true, commonPrefixL cp.comps p.comps⟩ := by
  intro fuel
  induction fuel with
  | zero =>
    intro cp _ hlt
    omega
  | succ n ih =>
    intro cp hcp hlt
    unfold shrinkAux
    by_cases hrel : p.isRelativeTo cp = true
    · rw [if_pos hrel]
      have hpre : cp.comps <+: p.comps := (isRelativeTo_absolute p cp hp hcp).mp hrel
      rw [commonPrefixL_eq_of_isPrefix _ _ hpre]
      cases cp with
      | mk ab comps =>
        cases hcp
        rfl
    · rw [if_neg hrel]
      have hne : ¬cp.comps.isEmpty = true := by
        intro hempty
        apply hrel
        rw [isRelativeTo_absolute p cp hp hcp]
        rw [List.isEmpty_iff] at hempty
        rw [hempty]
        exact List.nil_prefix
      rw [if_neg hne]
      have hpabs : cp.parent.absolute = true := parent_absolute cp hcp
      have hstr : ¬cp.parent.str = "" := str_absolute_ne_empty _ hpabs
      rw [if_neg hstr]
      have hcomps : cp.parent.comps = cp.comps.dropLast := parent_comps_of_ne cp hne
      have hfuel : cp.parent.comps.length < n := by
        rw [List.isEmpty_iff] at hne
        have hpos : 0 < cp.comps.length := List.length_pos.mpr hne
        rw [hcomps, List.length_dropLast]
        omega
      rw [ih cp.parent hpabs hfuel]
      have hnpre : ¬(cp.comps <+: p.comps) := fun hc =>
        hrel ((isRelativeTo_absolute p cp hp hcp).mpr hc)
      rw [hcomps, commonPrefixL_dropLast _ _ hnpre]

theorem reduceLoop_absolute :
    ∀ (rest : List PPath) (cp : PPath), cp.absolute = true →
      (∀ p ∈ rest, p.absolute = true) →
      reduceLoop cp rest = some (some ⟨true, lcpAll cp.comps rest⟩) := by
  intro rest
  induction rest with
  | nil =>
    intro cp hcp _
    unfold reduceLoop lcpAll
    simp only [List.foldl_nil]
    cases cp with
    | mk ab comps =>
      cases hcp
      rfl
  | cons p rest ih =>
    intro cp hcp hall
    have hp : p.absolute = true := hall p (List.mem_cons_self p rest)
    have hshrink : shrinkCommon p cp = .found ⟨true, commonPrefixL cp.comps p.comps⟩ :=
      shrinkAux_absolute p hp _ cp hcp (Nat.lt_succ_self _)
    unfold reduceLoop
    rw [hshrink]
    dsimp only
    rw [ih ⟨true, commonPrefixL cp.comps p.comps⟩ rfl
      (fun q hq => hall q (List.mem_cons_of_mem p hq))]
    rfl

theorem lcpAll_prefix_start :
    ∀ (rest : List PPath) (start : List String), lcpAll start rest <+: start := by
  intro rest
  induction rest with
  | nil => intro start; exact List.prefix_refl _
  | cons p rest ih =>
    intro start
    unfold lcpAll
    simp only [List.foldl_cons]
    exact (ih (commonPrefixL start p.comps)).trans (commonPrefixL_prefix_left start p.comps)

theorem lcpAll_prefix_mem :
    ∀ (rest : List PPath) (start : List String) (p : PPath), p ∈ rest →
      lcpAll start rest <+: p.comps := by
  intro rest
  induction rest with
  | nil =>
    intro start p hp
    cases hp
  | cons q rest ih =>
    intro start p hp
    unfold lcpAll
    simp only [List.foldl_cons]
    rcases List.mem_cons.mp hp with h | h
    · subst h
      exact (lcpAll_prefix_start rest _).trans (commonPrefixL_prefix_right start p.comps)
    · exact ih _ p h

theorem lcpAll_greatest :
    ∀ (rest : List PPath) (start M : List String), M <+: start →
      (∀ p ∈ rest, M <+: p.comps) → M <+: lcpAll start rest := by
  intro rest
  induction rest with
  | nil =>
    intro start M h _
    exact h
  | cons q rest ih =>
    intro start M h hall
    unfold lcpAll
    simp only [List.foldl_cons]
    exact ih _ M
      (prefix_commonPrefixL M start q.comps h (hall q (List.mem_cons_self _ _)))
      (fun p hp => hall p (List.mem_cons_of_mem _ hp))

theorem findCommon_absolute (p0 : PPath) (rest : List PPath)
    (h0 : p0.absolute = true) (hall : ∀ p ∈ rest, p.absolute = true) :
    find_common_prefix_and_strip_paths (p0 :: rest) =
      some ((PPath.mk true (lcpAll p0.comps rest)).str,
        (p0 :: rest).map
          (fun p => PPath.mk false (p.comps.drop (lcpAll p0.comps rest).length))) := by
  unfold find_common_prefix_and_strip_paths
  dsimp only
  rw [reduceLoop_absolute rest p0 h0 hall]
  rfl

/-! ## Path reducer claims -/

/-- Claim C9: when the input paths are absolute (so a common ancestor
exists), the reducer returns the longest shared ancestor as the prefix
and each input path rewritten relative to it — the returned ancestor is
an ancestor of every input, and every common ancestor is an ancestor of
the returned one; in particular the two listed example paths give the
two-component prefix with the two expected relative paths. -/
theorem find_common_returns_longest_ancestor :
    (∀ (p0 : PPath) (rest : List PPath), p0.absolute = true →
      (∀ p ∈ rest, p.absolute = true) →
      ∃ cp : PPath, cp.absolute = true
        ∧ find_common_prefix_and_strip_paths (p0 :: rest)
            = some (cp.str, (p0 :: rest).map (fun p => p.relativeTo cp))
        ∧ (∀ p ∈ p0 :: rest, cp.comps <+: p.comps)
        ∧ (∀ A : PPath, A.absolute = true →
            (∀ p ∈ p0 :: rest, A.comps <+: p.comps) → A.comps <+: cp.comps))
    ∧ find_common_prefix_and_strip_paths
        [⟨true, ["a", "b", "x.gitignore"]⟩, ⟨true, ["a", "b", "c", "y.gitignore"]⟩]
        = some ("/a/b", [⟨false, ["x.gitignore"]⟩, ⟨false, ["c", "y.gitignore"]⟩]) := by
  constructor
  · intro p0 rest h0 hall
    refine ⟨⟨true, lcpAll p0.comps rest⟩, rfl, ?_, ?_, ?_⟩
    · rw [findCommon_absolute p0 rest h0 hall]
      rfl
    · intro p hp
      rcases List.mem_cons.mp hp with h | h
      · subst h
        exact lcpAll_prefix_start rest p.comps
      · exact lcpAll_prefix_mem rest p0.comps p h
    · intro A hA hallA
      exact lcpAll_greatest rest p0.comps A.comps
        (hallA p0 (List.mem_cons_self _ _))
        (fun p hp => hallA p (List.mem_cons_of_mem _ hp))
  · decide

/-- Witness for claim C9, instantiated at the two example paths. -/
theorem find_common_returns_longest_ancestor_witness :
    ∃ cp : PPath, cp.absolute = true
      ∧ find_common_prefix_and_strip_paths
          [⟨true, ["a", "b", "x.gitignore"]⟩, ⟨true, ["a", "b", "c", "y.gitignore"]⟩]
          = some (cp.str,
            ([⟨true, ["a", "b", "x.gitignore"]⟩,
              (⟨true, ["a", "b", "c", "y.gitignore"]⟩ : PPath)]).map
              (fun p => p.relativeTo cp))
      ∧ (∀ p ∈ ([⟨true, ["a", "b", "x.gitignore"]⟩,
            (⟨true, ["a", "b", "c", "y.gitignore"]⟩ : PPath)]), cp.comps <+: p.comps)
      ∧ (∀ A : PPath, A.absolute = true →
          (∀ p ∈ ([⟨true, ["a", "b", "x.gitignore"]⟩,
              (⟨true, ["a", "b", "c", "y.gitignore"]⟩ : PPath)]), A.comps <+: p.comps) →
          A.comps <+: cp.comps) :=
  find_common_returns_longest_ancestor.1 ⟨true, ["a", "b", "x.gitignore"]⟩
    [⟨true, ["a", "b", "c", "y.gitignore"]⟩] rfl (by decide)

/-- Claim C2 counterexample: on the two example absolute paths with no
shared directory, the reducer returns the root as the prefix, with the
paths made relative to the root — not an empty prefix together with the
unmodified input paths. -/
theorem find_common_no_ancestor_counterexample :
    find_common_prefix_and_strip_paths
        [⟨true, ["a", "x.gitignore"]⟩, ⟨true, ["b", "y.gitignore"]⟩]
        = some ("/", [⟨false, ["a", "x.gitignore"]⟩, ⟨false, ["b", "y.gitignore"]⟩])
    ∧ find_common_prefix_and_strip_paths
        [⟨true, ["a", "x.gitignore"]⟩, ⟨true, ["b", "y.gitignore"]⟩]
        ≠ some ("", [⟨true, ["a", "x.gitignore"]⟩, ⟨true, ["b", "y.gitignore"]⟩]) := by
  exact ⟨by decide, by decide⟩

/-- Claim C2 (amended): for a non-empty list of absolute paths whose
only shared ancestor is the filesystem root, the reducer returns the
root (a one-character slash prefix, not an empty one) together with
each path made relative to the root, that is, the original components
without the leading slash — it does not return the input paths
unchanged, and the early empty-prefix return of the source is
unreachable for absolute paths because the parent chain stops at the
root, whose string form is non-empty. -/
theorem find_common_no_shared_ancestor_amended
    (p0 : PPath) (rest : List PPath) (h0 : p0.absolute = true)
    (hall : ∀ p ∈ rest, p.absolute = true)
    (hlcp : lcpAll p0.comps rest = []) :
    find_common_prefix_and_strip_paths (p0 :: rest)
      = some ("/", (p0 :: rest).map (fun p => PPath.mk false p.comps)) := by
  rw [findCommon_absolute p0 rest h0 hall, hlcp]
  have hstr : (PPath.mk true []).str = "/" := rfl
  have hfun : (fun p : PPath => PPath.mk false (p.comps.drop (List.length ([] : List String))))
      = fun p : PPath => PPath.mk false p.comps := by
    funext p
    simp
  rw [hstr, hfun]

/-- Witness for claim C2, at the two example paths sharing only the
root. -/
theorem find_common_no_shared_ancestor_amended_witness :
    find_common_prefix_and_strip_paths
        [⟨true, ["a", "x.gitignore"]⟩, ⟨true, ["b", "y.gitignore"]⟩]
      = some ("/",
          ([⟨true, ["a", "x.gitignore"]⟩, (⟨true, ["b", "y.gitignore"]⟩ : PPath)]).map
            (fun p => PPath.mk false p.comps)) :=
  find_common_no_shared_ancestor_amended ⟨true, ["a", "x.gitignore"]⟩
    [⟨true, ["b", "y.gitignore"]⟩] rfl (by decide) (by decide)
